import Mathlib

/-!
Verification of the `test-ratatui` terminal demo application (`src/main.rs`).

The application state (`App`) and its key-dispatch logic are embedded as
executable Lean definitions, translated directly from the Rust source:

* `counter: u8` is modelled as `Nat` carrying the invariant `counter ≤ 255`;
  `u8::saturating_add(1)` becomes `min (counter + 1) 255`.
* `items: Vec<String>` becomes `List String`, `selected_index: usize`
  becomes `Nat`.
* Rust integer overflow is a program error (a panic under the checked
  semantics), so fallible arithmetic is modelled with `Option`:
  `App.handle_key` returns `none` exactly on the two faulting paths of the
  source, namely the `usize` underflow of `items.len() - 1` in the
  down-arrow arm when `items` is empty, and the out-of-bounds panic of
  `Vec::remove` (the latter unreachable from the initial state).
* The gauge percentage `((counter as f64 / 100.0) * 100.0) as u16` is
  modelled exactly, with IEEE-754 binary64 round-to-nearest-even arithmetic
  over `ℚ` (`roundF64`) and the saturating truncating float-to-int cast.
-/

/-- Key codes, after crossterm's `KeyCode` enum. The payloads of `F`,
`Media` and `Modifier` are abstracted to `Nat`; the source program matches
only on `Char _`, `Esc`, `Up`, `Down` and a wildcard, so nothing depends on
them. -/
inductive KeyCode where
  | Char (c : Char)
  | Esc
  | Up
  | Down
  | Left
  | Right
  | Enter
  | Backspace
  | Home
  | End
  | PageUp
  | PageDown
  | Tab
  | BackTab
  | Delete
  | Insert
  | F (n : Nat)
  | Null
  | CapsLock
  | ScrollLock
  | NumLock
  | PrintScreen
  | Pause
  | Menu
  | KeypadBegin
  | Media (m : Nat)
  | Modifier (m : Nat)
  deriving DecidableEq, Repr

/-- Kind of a key event, after crossterm's `KeyEventKind`. -/
inductive KeyEventKind where
  | Press
  | Repeat
  | Release
  deriving DecidableEq, Repr

/-- A keyboard event, after crossterm's `KeyEvent`: a code plus the
modifier bitflags, the kind, and the state bitflags (the two bitflag fields
are modelled as raw `Nat` bit patterns). -/
structure KeyEvent where
  code : KeyCode
  modifiers : Nat
  kind : KeyEventKind
  state : Nat
  deriving DecidableEq, Repr

/-- The application state, after `struct App` in `src/main.rs`. -/
structure App where
  counter : Nat
  should_quit : Bool
  items : List String
  selected_index : Nat
  deriving DecidableEq, Repr

/-- The initial state, after `App::new`. -/
def App.new : App :=
  { counter := 0
    should_quit := false
    items := ["Item 1", "Item 2", "Item 3", "Item 4", "Item 5"]
    selected_index := 0 }

/-- After `App::tick`: `self.counter = self.counter.saturating_add(1)`,
with `u8` saturation at 255. -/
def App.tick (s : App) : App :=
  { s with counter := min (s.counter + 1) 255 }

/-- The label of a freshly appended item, after
`format!("New Item {}", self.items.len() + 1)`: the argument is the item
count at the moment of the append, plus one, printed in decimal. -/
def newItemLabel (count : Nat) : String :=
  "New Item " ++ Nat.repr count

/-- After `App::handle_key`. Each arm mirrors the `match key.code` in the
source; the `Char` patterns of the source are rendered as an `if` cascade
on the carried character, so the body of the `Char('q') | Esc` arm appears
once under `Char` and once under `Esc`. The down-arrow arm evaluates
`self.items.len() - 1` in `usize`: when `items` is empty this subtraction
underflows, a fault (`none`). The `'d'` arm calls
`Vec::remove(self.selected_index)`, which panics (`none`) when the index
is out of bounds. -/
def App.handle_key (s : App) (key : KeyEvent) : Option App :=
  match key.code with
  | .Char c =>
      if c = 'q' then some { s with should_quit := true }
      else if c = ' ' then some s.tick
      else if c = 'a' then
        some { s with items := s.items ++ [newItemLabel (s.items.length + 1)] }
      else if c = 'd' then
        if s.items.isEmpty then
          some s
        else if s.selected_index < s.items.length then
          let items' := s.items.eraseIdx s.selected_index
          some { s with
            items := items'
            selected_index :=
              if s.selected_index ≥ items'.length ∧ s.selected_index > 0 then
                s.selected_index - 1
              else s.selected_index }
        else
          none
      else some s
  | .Esc => some { s with should_quit := true }
  | .Up =>
      some (if s.selected_index > 0 then
        { s with selected_index := s.selected_index - 1 }
      else s)
  | .Down =>
      if s.items.length = 0 then
        none
      else
        some (if s.selected_index < s.items.length - 1 then
          { s with selected_index := s.selected_index + 1 }
        else s)
  | _ => some s

/-- Dispatch of a sequence of key events, one `handle_key` per event, as the
`run` loop does; a faulting dispatch aborts the run. -/
def dispatchAll (s : App) : List KeyEvent → Option App
  | [] => some s
  | k :: ks =>
      match s.handle_key k with
      | none => none
      | some t => dispatchAll t ks

/-- A key event carrying just a code, with no modifiers, kind `Press`,
empty state: the plain form in which each key is typed. -/
def plainKey (c : KeyCode) : KeyEvent :=
  { code := c, modifiers := 0, kind := .Press, state := 0 }

/-- Iterated `App.tick`, modelling a sequence of `tick()` calls. -/
def tickN : Nat → App → App
  | 0, s => s
  | n + 1, s => tickN n s.tick

/-! ### Exact model of the gauge percentage computation

The source computes, in `render_info` (lines 179-184):
`let progress = app.counter as f64 / 100.0;` and then
`(progress * 100.0) as u16` both for `.percent(..)` and for the label.
IEEE-754 binary64 division and multiplication are correctly rounded
(round to nearest, ties to even), so the computation is modelled exactly
with nonnegative rationals represented as `Nat` numerator/denominator
pairs, one rounding step per floating-point operation. -/

/-- Multiply the exact nonnegative fraction `n / d` by `2 ^ k`,
returning a numerator/denominator pair. -/
def fracMulPow2 (n d : Nat) (k : Int) : Nat × Nat :=
  if 0 ≤ k then (n * 2 ^ k.toNat, d) else (n, d * 2 ^ (-k).toNat)

/-- Whether `2 ^ e ≤ n / d`, for a nonnegative fraction `n / d`. -/
def pow2LeFrac (e : Int) (n d : Nat) : Bool :=
  if 0 ≤ e then d * 2 ^ e.toNat ≤ n else d ≤ n * 2 ^ (-e).toNat

/-- Binary exponent of the fraction `n / d`: the largest `e` with
`2 ^ e ≤ n / d`, found by scanning down from a starting exponent with
enough fuel to cover every value arising in the gauge computation
(all of which lie in `[2 ^ (-7), 2 ^ 15)`). -/
def floorLog2 (n d : Nat) : Nat → Int → Int
  | 0, e => e
  | f + 1, e => if pow2LeFrac e n d then e else floorLog2 n d f (e - 1)

/-- Round the nonnegative fraction `p / q` to the nearest integer,
ties to even. -/
def rneNat (p q : Nat) : Nat :=
  let f := p / q
  let r := p % q
  if 2 * r < q then f
  else if q < 2 * r then f + 1
  else if f % 2 = 0 then f else f + 1

/-- IEEE-754 binary64 rounding (round to nearest, ties to even) of the
nonnegative fraction `n / d`, valid on the normal range: the value is
scaled so that its significand lies in `[2 ^ 52, 2 ^ 53)`, the significand
is rounded to an integer, and the result is scaled back, returned as an
exact dyadic fraction. -/
def roundF64 (n d : Nat) : Nat × Nat :=
  if n = 0 then (0, 1)
  else
    let e := floorLog2 n d 90 20
    let m := fracMulPow2 n d (52 - e)
    let s := rneNat m.1 m.2
    fracMulPow2 s 1 (e - 52)

/-- The `u16` value computed in `render_info` for the gauge's `.percent(..)`
argument and its label: `((counter as f64 / 100.0) * 100.0) as u16`.
Each of the two floating-point operations is one correctly-rounded step;
the `as u16` cast truncates toward zero and saturates at the type bounds. -/
def render_info_percent (counter : Nat) : Nat :=
  let progress := roundF64 counter 100
  let scaled := roundF64 (100 * progress.1) progress.2
  min 65535 (scaled.1 / scaled.2)

/-- Counters in `0..=255` for which the floating-point round trip
`(c / 100.0) * 100.0` lands strictly below `c`, so that the truncating
cast yields `c - 1`. -/
def gaugeDropList : List Nat :=
  [29, 57, 58, 113, 114, 115, 116, 201, 203, 205, 207,
   226, 228, 230, 232, 251, 253, 255]

/-- Well-formedness of the selection: the selection is in range, except
that on an empty list it may only be the residual value `0` (the only value
it can hold when the list empties out, since emptying requires deleting at
index `0`). This is the inductive invariant behind the spec's
selection-range property. -/
def selOk (s : App) : Prop :=
  s.selected_index = 0 ∨ s.selected_index < s.items.length

/-- Numeric value of a decimal digit character. -/
def digitVal (c : Char) : Nat := c.toNat - 48

/-- Numeric value of a big-endian list of decimal digit characters;
a left inverse to decimal printing, used to invert `Nat.repr`. -/
def digitsVal (l : List Char) : Nat := l.foldl (fun a c => 10 * a + digitVal c) 0

/-- The item list reached from the initial state by `m` appends and no
deletion: the five initial labels followed by `New Item 6`, `New Item 7`,
and so on, one per append. -/
def itemsAfterAdds (m : Nat) : List String :=
  App.new.items ++ (List.range m).map (fun j => newItemLabel (6 + j))

/-- A key sequence that never presses `d`. -/
def noDelete (ks : List KeyEvent) : Prop :=
  ∀ k ∈ ks, k.code ≠ .Char 'd'

/-! ### Unfolding lemmas for `App.handle_key`, one per kind of key -/

lemma handle_key_char (s : App) (k : KeyEvent) (c : Char) (hk : k.code = .Char c) :
    s.handle_key k =
      (if c = 'q' then some { s with should_quit := true }
      else if c = ' ' then some s.tick
      else if c = 'a' then
        some { s with items := s.items ++ [newItemLabel (s.items.length + 1)] }
      else if c = 'd' then
        if s.items.isEmpty then
          some s
        else if s.selected_index < s.items.length then
          some { s with
            items := s.items.eraseIdx s.selected_index
            selected_index :=
              if s.selected_index ≥ (s.items.eraseIdx s.selected_index).length ∧
                  s.selected_index > 0 then
                s.selected_index - 1
              else s.selected_index }
        else
          none
      else some s) := by
  unfold App.handle_key
  rw [hk]

lemma handle_key_esc (s : App) (k : KeyEvent) (hk : k.code = .Esc) :
    s.handle_key k = some { s with should_quit := true } := by
  unfold App.handle_key
  rw [hk]

lemma handle_key_up (s : App) (k : KeyEvent) (hk : k.code = .Up) :
    s.handle_key k =
      some (if s.selected_index > 0 then
        { s with selected_index := s.selected_index - 1 }
      else s) := by
  unfold App.handle_key
  rw [hk]

lemma handle_key_down (s : App) (k : KeyEvent) (hk : k.code = .Down) :
    s.handle_key k =
      if s.items.length = 0 then
        none
      else
        some (if s.selected_index < s.items.length - 1 then
          { s with selected_index := s.selected_index + 1 }
        else s) := by
  unfold App.handle_key
  rw [hk]

lemma handle_key_other (s : App) (k : KeyEvent)
    (hchar : ∀ c, k.code ≠ .Char c) (hesc : k.code ≠ .Esc)
    (hup : k.code ≠ .Up) (hdown : k.code ≠ .Down) :
    s.handle_key k = some s := by
  unfold App.handle_key
  cases hc : k.code
  case Char c => exact absurd hc (hchar c)
  case Esc => exact absurd hc hesc
  case Up => exact absurd hc hup
  case Down => exact absurd hc hdown
  all_goals rfl

/-! ### Preservation of the selection invariant -/

lemma handle_key_selOk {s t : App} (k : KeyEvent) (hs : selOk s)
    (h : s.handle_key k = some t) : selOk t := by
  cases hc : k.code
  case Char c =>
    rw [handle_key_char s k c hc] at h
    by_cases hq : c = 'q'
    · rw [if_pos hq] at h
      injection h with h
      subst h
      exact hs
    rw [if_neg hq] at h
    by_cases hsp : c = ' '
    · rw [if_pos hsp] at h
      injection h with h
      subst h
      exact hs
    rw [if_neg hsp] at h
    by_cases ha : c = 'a'
    · rw [if_pos ha] at h
      injection h with h
      subst h
      unfold selOk at hs ⊢
      dsimp only
      simp only [List.length_append, List.length_cons, List.length_nil]
      omega
    rw [if_neg ha] at h
    by_cases hd : c = 'd'
    · rw [if_pos hd] at h
      by_cases hemp : s.items.isEmpty
      · rw [if_pos hemp] at h
        injection h with h
        subst h
        exact hs
      rw [if_neg hemp] at h
      by_cases hlt : s.selected_index < s.items.length
      · rw [if_pos hlt] at h
        injection h with h
        subst h
        have hlen : (s.items.eraseIdx s.selected_index).length = s.items.length - 1 :=
          List.length_eraseIdx_of_lt hlt
        unfold selOk at hs ⊢
        dsimp only
        simp only [hlen]
        split
        · omega
        · omega
      · rw [if_neg hlt] at h
        exact absurd h (by simp)
    · rw [if_neg hd] at h
      injection h with h
      subst h
      exact hs
  case Esc =>
    rw [handle_key_esc s k hc] at h
    injection h with h
    subst h
    exact hs
  case Up =>
    rw [handle_key_up s k hc] at h
    injection h with h
    subst h
    split
    · unfold selOk at hs ⊢
      dsimp only
      omega
    · exact hs
  case Down =>
    rw [handle_key_down s k hc] at h
    by_cases hz : s.items.length = 0
    · rw [if_pos hz] at h
      exact absurd h (by simp)
    rw [if_neg hz] at h
    injection h with h
    subst h
    split
    · unfold selOk at hs ⊢
      dsimp only
      omega
    · exact hs
  all_goals
    rw [handle_key_other s k (by rw [hc]; intro c; exact fun hx => KeyCode.noConfusion hx)
      (by rw [hc]; exact fun hx => KeyCode.noConfusion hx)
      (by rw [hc]; exact fun hx => KeyCode.noConfusion hx)
      (by rw [hc]; exact fun hx => KeyCode.noConfusion hx)] at h
    injection h with h
    subst h
    exact hs

lemma dispatchAll_selOk : ∀ (ks : List KeyEvent) {s t : App}, selOk s →
    dispatchAll s ks = some t → selOk t := by
  intro ks
  induction ks with
  | nil =>
    intro s t hs h
    injection h with h
    subst h
    exact hs
  | cons k ks ih =>
    intro s t hs h
    unfold dispatchAll at h
    cases hk : s.handle_key k with
    | none => rw [hk] at h; exact absurd h (by simp)
    | some u =>
      rw [hk] at h
      exact ih (handle_key_selOk k hs hk) h

/-- C1: starting from `App::new`, after every sequence of key dispatches
that completes (no dispatch faults), a non-empty `items` list has
`selected_index` strictly within bounds. -/
theorem selected_index_invariant (ks : List KeyEvent) (s : App)
    (h : dispatchAll App.new ks = some s) (hne : s.items ≠ []) :
    s.selected_index < s.items.length := by
  have hs : selOk s := dispatchAll_selOk ks (Or.inl rfl) h
  rcases hs with h0 | hlt
  · rw [h0]
    exact List.length_pos.mpr hne
  · exact hlt

/-- Witness for C1 at the empty key sequence. -/
theorem selected_index_invariant_witness :
    App.new.selected_index < App.new.items.length :=
  selected_index_invariant [] App.new rfl (by decide)

/-- C2 is a code bug: pressing `d` five times from the initial state empties
the list, a reachable state; dispatching the down-arrow there evaluates the
`usize` expression `items.len() - 1 = 0 - 1`, which underflows, so the
dispatch faults instead of being a clamped no-op (in a release build the
wrapped bound even lets `selected_index` grow to `1`). -/
theorem down_on_empty_faults :
    dispatchAll App.new (List.replicate 5 (plainKey (.Char 'd'))) =
      some { counter := 0, should_quit := false, items := [], selected_index := 0 } ∧
    App.handle_key
      { counter := 0, should_quit := false, items := [], selected_index := 0 }
      (plainKey .Down) = none := by decide

/-- C3 counterexample: the gauge percentage is not `min(counter, 100)`.
At counter 200 the computation yields 200 (nothing clamps at 100), and at
counter 29 floating-point round-off yields 28 rather than 29. -/
theorem gauge_percent_not_min :
    render_info_percent 200 ≠ min 200 100 ∧
    render_info_percent 29 ≠ min 29 100 := by decide

set_option maxRecDepth 10000 in
/-- C3 amended: for every counter in `0..=255` the computed gauge
percentage (also used as the label) is the counter itself, except on the
eighteen counters where the binary64 round trip `(c / 100.0) * 100.0`
falls just below `c` and truncation yields `c - 1`; in particular the
value is never clamped at 100, so every counter above 100 produces a
percentage above 100. -/
theorem gauge_percent_exact (c : Nat) (hc : c < 256) :
    render_info_percent c = if c ∈ gaugeDropList then c - 1 else c := by
  revert hc
  revert c
  decide

/-- Witness for C3 amended, at counter 29. -/
theorem gauge_percent_exact_witness :
    (29 : Nat) < 256 ∧
      render_info_percent 29 = if 29 ∈ gaugeDropList then 29 - 1 else 29 :=
  ⟨by decide, gauge_percent_exact 29 (by decide)⟩

/-- C5: on a non-empty list with an in-range selection, `d` removes the
item at `selected_index`, shrinking the list by exactly one; the selection
moves down by one exactly when the removed index was the last index and
positive, and stays put otherwise. -/
theorem delete_behavior (s : App) (k : KeyEvent) (hk : k.code = .Char 'd')
    (hne : s.items ≠ []) (hsel : s.selected_index < s.items.length) :
    s.handle_key k = some
      { s with
        items := s.items.eraseIdx s.selected_index
        selected_index :=
          if s.selected_index = s.items.length - 1 ∧ 0 < s.selected_index then
            s.selected_index - 1
          else s.selected_index } ∧
    (s.items.eraseIdx s.selected_index).length = s.items.length - 1 := by
  have hlen : (s.items.eraseIdx s.selected_index).length = s.items.length - 1 :=
    List.length_eraseIdx_of_lt hsel
  refine ⟨?_, hlen⟩
  rw [handle_key_char s k 'd' hk]
  rw [if_neg (by decide), if_neg (by decide), if_neg (by decide), if_pos rfl]
  rw [if_neg (by simp [List.isEmpty_eq_false.mpr hne]), if_pos hsel]
  have hcond : (s.selected_index ≥ (s.items.eraseIdx s.selected_index).length ∧
      s.selected_index > 0) ↔
      (s.selected_index = s.items.length - 1 ∧ 0 < s.selected_index) := by
    rw [hlen]
    omega
  simp only [hcond]

/-- Witness for C5 at the initial state. -/
theorem delete_behavior_witness :
    App.new.handle_key (plainKey (.Char 'd')) = some
      { App.new with
        items := App.new.items.eraseIdx App.new.selected_index
        selected_index :=
          if App.new.selected_index = App.new.items.length - 1 ∧
              0 < App.new.selected_index then
            App.new.selected_index - 1
          else App.new.selected_index } ∧
    (App.new.items.eraseIdx App.new.selected_index).length =
      App.new.items.length - 1 :=
  delete_behavior App.new (plainKey (.Char 'd')) rfl (by decide) (by decide)

lemma tick_counter_le (s : App) (h : s.counter ≤ 255) :
    s.counter ≤ s.tick.counter ∧ s.tick.counter ≤ 255 := by
  unfold App.tick
  dsimp only
  omega

lemma tickN_counter_le_255 : ∀ (n : Nat) (s : App), s.counter ≤ 255 →
    (tickN n s).counter ≤ 255 := by
  intro n
  induction n with
  | zero => intro s h; exact h
  | succ n ih =>
    intro s h
    exact ih s.tick (tick_counter_le s h).2

/-- C6: a single `tick()` increments the counter by one unless it is
already at the `u8` maximum 255, where it stays; along any sequence of
ticks the counter never decreases from one call to the next and never
exceeds 255. -/
theorem tick_saturating :
    (∀ s : App, s.counter ≤ 255 →
      s.tick.counter = if s.counter = 255 then 255 else s.counter + 1) ∧
    (∀ (s : App) (n : Nat), s.counter ≤ 255 →
      (tickN n s).counter ≤ (tickN (n + 1) s).counter) ∧
    (∀ (s : App) (n : Nat), s.counter ≤ 255 → (tickN n s).counter ≤ 255) := by
  refine ⟨?_, ?_, fun s n h => tickN_counter_le_255 n s h⟩
  · intro s h
    unfold App.tick
    dsimp only
    split
    · omega
    · omega
  · intro s n
    induction n generalizing s with
    | zero =>
      intro h
      exact (tick_counter_le s h).1
    | succ n ih =>
      intro h
      exact ih s.tick (tick_counter_le s h).2

/-- Witness for C6 at the initial state. -/
theorem tick_saturating_witness :
    App.new.tick.counter =
      (if App.new.counter = 255 then 255 else App.new.counter + 1) ∧
    (tickN 3 App.new).counter ≤ (tickN 4 App.new).counter ∧
    (tickN 300 App.new).counter ≤ 255 :=
  ⟨tick_saturating.1 App.new (by decide),
   tick_saturating.2.1 App.new 3 (by decide),
   tick_saturating.2.2 App.new 300 (by decide)⟩

/-- C7: navigation clamps at both ends: up-arrow at selection 0 is a no-op,
and down-arrow at the last index of a non-empty list is a no-op. -/
theorem navigation_clamps :
    (∀ (s : App) (k : KeyEvent), k.code = .Up → s.selected_index = 0 →
      s.handle_key k = some s) ∧
    (∀ (s : App) (k : KeyEvent), k.code = .Down → s.items ≠ [] →
      s.selected_index = s.items.length - 1 → s.handle_key k = some s) := by
  constructor
  · intro s k hk h0
    rw [handle_key_up s k hk, h0]
    rfl
  · intro s k hk hne hsel
    rw [handle_key_down s k hk]
    have hz : s.items.length ≠ 0 := by
      have := List.length_pos.mpr hne
      omega
    rw [if_neg hz, hsel, if_neg (by omega)]

/-- Witness for C7 at concrete states: up at selection 0 in the initial
state, down at the last index. -/
theorem navigation_clamps_witness :
    App.new.handle_key (plainKey .Up) = some App.new ∧
    ({ App.new with selected_index := 4 } : App).handle_key (plainKey .Down) =
      some { App.new with selected_index := 4 } :=
  ⟨navigation_clamps.1 App.new (plainKey .Up) rfl rfl,
   navigation_clamps.2 { App.new with selected_index := 4 } (plainKey .Down)
     rfl (by decide) (by decide)⟩

/-- C8: any key other than `q`, `Esc`, `Space`, `Up`, `Down`, `a`, `d` is
dispatched without any change to the state. -/
theorem unrecognized_key_noop (s : App) (k : KeyEvent)
    (hq : k.code ≠ .Char 'q') (hesc : k.code ≠ .Esc)
    (hspace : k.code ≠ .Char ' ') (hup : k.code ≠ .Up)
    (hdown : k.code ≠ .Down) (ha : k.code ≠ .Char 'a')
    (hd : k.code ≠ .Char 'd') :
    s.handle_key k = some s := by
  cases hc : k.code
  case Char c =>
    rw [hc] at hq hspace ha hd
    simp only [ne_eq, KeyCode.Char.injEq] at hq hspace ha hd
    rw [handle_key_char s k c hc,
      if_neg hq, if_neg hspace, if_neg ha, if_neg hd]
  case Esc => exact absurd hc hesc
  case Up => exact absurd hc hup
  case Down => exact absurd hc hdown
  all_goals
    exact handle_key_other s k
      (by rw [hc]; intro c hx; exact KeyCode.noConfusion hx)
      (by rw [hc]; intro hx; exact KeyCode.noConfusion hx)
      (by rw [hc]; intro hx; exact KeyCode.noConfusion hx)
      (by rw [hc]; intro hx; exact KeyCode.noConfusion hx)

/-- Witness for C8 at the Enter key in the initial state. -/
theorem unrecognized_key_noop_witness :
    App.new.handle_key (plainKey .Enter) = some App.new :=
  unrecognized_key_noop App.new (plainKey .Enter) (by decide) (by decide)
    (by decide) (by decide) (by decide) (by decide) (by decide)

/-- C9: dispatch depends on the key code alone: two key events with equal
codes produce equal transitions from every state, and `q` or `Esc` under
any modifier combination, kind, and state flags still sets the quit flag. -/
theorem dispatch_ignores_modifiers :
    (∀ (s : App) (ka kb : KeyEvent), ka.code = kb.code →
      s.handle_key ka = s.handle_key kb) ∧
    (∀ (s : App) (m st : Nat) (kind : KeyEventKind),
      s.handle_key ⟨.Char 'q', m, kind, st⟩ = some { s with should_quit := true } ∧
      s.handle_key ⟨.Esc, m, kind, st⟩ = some { s with should_quit := true }) := by
  constructor
  · intro s ka kb h
    unfold App.handle_key
    rw [h]
  · intro s m st kind
    exact ⟨rfl, rfl⟩

/-- Witness for C9: `q` with a modifier bit pattern and release kind acts
exactly as plain `q` on the initial state. -/
theorem dispatch_ignores_modifiers_witness :
    App.new.handle_key ⟨.Char 'q', 3, .Release, 1⟩ =
      App.new.handle_key (plainKey (.Char 'q')) ∧
    App.new.handle_key ⟨.Char 'q', 3, .Release, 1⟩ =
      some { App.new with should_quit := true } :=
  ⟨dispatch_ignores_modifiers.1 App.new ⟨.Char 'q', 3, .Release, 1⟩
     (plainKey (.Char 'q')) rfl,
   (dispatch_ignores_modifiers.2 App.new 3 1 .Release).1⟩

/-- C10: `App::new` returns counter 0, quit flag false, the five fixed
labels in order, and selection 0. -/
theorem app_new_initial_state :
    App.new.counter = 0 ∧ App.new.should_quit = false ∧
    App.new.items = ["Item 1", "Item 2", "Item 3", "Item 4", "Item 5"] ∧
    App.new.selected_index = 0 :=
  ⟨rfl, rfl, rfl, rfl⟩

/-! ### Decimal printing is injective: inverting `Nat.repr` -/

lemma digitsVal_append_singleton (xs : List Char) (c : Char) :
    digitsVal (xs ++ [c]) = 10 * digitsVal xs + digitVal c := by
  simp [digitsVal, List.foldl_append]

lemma digitVal_digitChar : ∀ m, m < 10 → digitVal (Nat.digitChar m) = m := by decide

lemma toDigitsCore_append (b fuel : Nat) :
    ∀ (n : Nat) (acc : List Char),
      Nat.toDigitsCore b fuel n acc = Nat.toDigitsCore b fuel n [] ++ acc := by
  induction fuel with
  | zero => intro n acc; simp [Nat.toDigitsCore]
  | succ f ih =>
    intro n acc
    simp only [Nat.toDigitsCore]
    by_cases h : n / b = 0
    · simp [h]
    · simp only [h, if_false]
      rw [ih (n / b) (Nat.digitChar (n % b) :: acc),
        ih (n / b) [Nat.digitChar (n % b)]]
      simp

lemma digitsVal_toDigitsCore :
    ∀ (fuel n : Nat), n < fuel →
      digitsVal (Nat.toDigitsCore 10 fuel n []) = n := by
  intro fuel
  induction fuel with
  | zero => intro n hn; omega
  | succ f ih =>
    intro n hn
    simp only [Nat.toDigitsCore]
    by_cases h : n / 10 = 0
    · simp only [h, if_true]
      have hlt : n < 10 := by omega
      have hm : n % 10 = n := Nat.mod_eq_of_lt hlt
      rw [hm]
      simp [digitsVal, digitVal_digitChar n hlt]
    · simp only [h, if_false]
      rw [toDigitsCore_append, digitsVal_append_singleton,
        ih (n / 10) (by omega),
        digitVal_digitChar (n % 10) (Nat.mod_lt _ (by norm_num))]
      omega

lemma digitsVal_repr (n : Nat) : digitsVal (Nat.repr n).data = n := by
  show digitsVal (Nat.toDigitsCore 10 (n + 1) n []) = n
  exact digitsVal_toDigitsCore (n + 1) n (Nat.lt_succ_self n)

lemma Nat.repr_injective : Function.Injective Nat.repr := by
  intro a b h
  have hd : digitsVal (Nat.repr a).data = digitsVal (Nat.repr b).data := by rw [h]
  rwa [digitsVal_repr, digitsVal_repr] at hd

/-! ### Labels along deletion-free runs -/

lemma newItemLabel_head (n : Nat) : (newItemLabel n).data.head? = some 'N' := rfl

lemma newItemLabel_not_mem_initial (n : Nat) : newItemLabel n ∉ App.new.items := by
  intro hmem
  have h1 : (newItemLabel n).data.head? = some 'N' := newItemLabel_head n
  simp only [App.new, List.mem_cons, List.not_mem_nil, or_false] at hmem
  rcases hmem with h | h | h | h | h <;>
    (rw [h] at h1; exact absurd h1 (by decide))

lemma newItemLabel_injective : Function.Injective newItemLabel := by
  intro a b h
  apply Nat.repr_injective
  have hd : ("New Item " : String).data ++ (Nat.repr a).data =
      ("New Item " : String).data ++ (Nat.repr b).data := congrArg String.data h
  have hdata : (Nat.repr a).data = (Nat.repr b).data := List.append_cancel_left hd
  exact String.ext hdata

lemma itemsAfterAdds_length (m : Nat) : (itemsAfterAdds m).length = 5 + m := by
  simp [itemsAfterAdds, App.new]
  omega

lemma itemsAfterAdds_succ (m : Nat) :
    itemsAfterAdds m ++ [newItemLabel ((itemsAfterAdds m).length + 1)] =
      itemsAfterAdds (m + 1) := by
  have h65 : (itemsAfterAdds m).length + 1 = 6 + m := by
    rw [itemsAfterAdds_length]
    omega
  rw [h65]
  simp [itemsAfterAdds, List.range_succ]

lemma newItemLabel_not_mem (m : Nat) : newItemLabel (6 + m) ∉ itemsAfterAdds m := by
  intro hmem
  unfold itemsAfterAdds at hmem
  rw [List.mem_append] at hmem
  rcases hmem with h | h
  · exact newItemLabel_not_mem_initial (6 + m) h
  · rw [List.mem_map] at h
    obtain ⟨j, hj, hlab⟩ := h
    have hj6 := newItemLabel_injective hlab
    rw [List.mem_range] at hj
    omega

lemma handle_key_items_noDelete {s t : App} (k : KeyEvent)
    (hkd : k.code ≠ .Char 'd') (h : s.handle_key k = some t) :
    t.items = s.items ∨
    t.items = s.items ++ [newItemLabel (s.items.length + 1)] := by
  cases hc : k.code
  case Char c =>
    rw [hc] at hkd
    simp only [ne_eq, KeyCode.Char.injEq] at hkd
    rw [handle_key_char s k c hc] at h
    by_cases hq : c = 'q'
    · rw [if_pos hq] at h; injection h with h; subst h; left; rfl
    rw [if_neg hq] at h
    by_cases hsp : c = ' '
    · rw [if_pos hsp] at h; injection h with h; subst h; left; rfl
    rw [if_neg hsp] at h
    by_cases ha : c = 'a'
    · rw [if_pos ha] at h; injection h with h; subst h; right; rfl
    rw [if_neg ha, if_neg hkd] at h
    injection h with h; subst h; left; rfl
  case Esc =>
    rw [handle_key_esc s k hc] at h; injection h with h; subst h; left; rfl
  case Up =>
    rw [handle_key_up s k hc] at h; injection h with h; subst h
    left; split <;> rfl
  case Down =>
    rw [handle_key_down s k hc] at h
    by_cases hz : s.items.length = 0
    · rw [if_pos hz] at h; exact absurd h (by simp)
    rw [if_neg hz] at h; injection h with h; subst h
    left; split <;> rfl
  all_goals
    rw [handle_key_other s k
      (by rw [hc]; intro c hx; exact KeyCode.noConfusion hx)
      (by rw [hc]; intro hx; exact KeyCode.noConfusion hx)
      (by rw [hc]; intro hx; exact KeyCode.noConfusion hx)
      (by rw [hc]; intro hx; exact KeyCode.noConfusion hx)] at h
    injection h with h
    subst h
    left
    rfl

lemma noDelete_reach : ∀ (ks : List KeyEvent) {s t : App} (m : Nat),
    s.items = itemsAfterAdds m → noDelete ks → dispatchAll s ks = some t →
    ∃ m', t.items = itemsAfterAdds m' := by
  intro ks
  induction ks with
  | nil =>
    intro s t m hm hnd h
    injection h with h
    subst h
    exact ⟨m, hm⟩
  | cons k ks ih =>
    intro s t m hm hnd h
    unfold dispatchAll at h
    cases hk : s.handle_key k with
    | none => rw [hk] at h; exact absurd h (by simp)
    | some u =>
      rw [hk] at h
      have hkd : k.code ≠ .Char 'd' := hnd k (List.mem_cons_self k ks)
      have hnd' : noDelete ks := fun x hx => hnd x (List.mem_cons_of_mem _ hx)
      rcases handle_key_items_noDelete k hkd hk with hi | hi
      · exact ih m (hi.trans hm) hnd' h
      · refine ih (m + 1) ?_ hnd' h
        rw [hi, hm, itemsAfterAdds_succ]

/-- C4 counterexample: after pressing `d`, `a`, `d` from the initial state
(a legal key sequence), the reachable state below already contains the
label `New Item 5`, yet that is exactly the label the next `a` press
appends — so the appended label is not always distinct from the labels
already present. -/
theorem append_label_duplicate :
    dispatchAll App.new
      [plainKey (.Char 'd'), plainKey (.Char 'a'), plainKey (.Char 'd')] =
      some { counter := 0, should_quit := false,
             items := ["Item 3", "Item 4", "Item 5", "New Item 5"],
             selected_index := 0 } ∧
    newItemLabel ((["Item 3", "Item 4", "Item 5", "New Item 5"] :
        List String).length + 1) ∈
      (["Item 3", "Item 4", "Item 5", "New Item 5"] : List String) := by decide

/-- C4 amended: in every state, `a` appends exactly one item at the end,
labelled `"New Item " ++ (items.len() + 1)`, and leaves `selected_index`
(and all other fields) unchanged; the appended label is distinct from all
labels already present for every deletion-free key sequence from the
initial state (once `d` presses are allowed, the label can repeat, as the
counterexample shows). -/
theorem append_behavior :
    (∀ (s : App) (k : KeyEvent), k.code = .Char 'a' →
      s.handle_key k =
        some { s with items := s.items ++ [newItemLabel (s.items.length + 1)] }) ∧
    (∀ (ks : List KeyEvent) (s : App), noDelete ks →
      dispatchAll App.new ks = some s →
      newItemLabel (s.items.length + 1) ∉ s.items) := by
  constructor
  · intro s k hk
    rw [handle_key_char s k 'a' hk,
      if_neg (by decide), if_neg (by decide), if_pos rfl]
  · intro ks s hnd h
    obtain ⟨m, hm⟩ := noDelete_reach ks 0 rfl hnd h
    rw [hm, itemsAfterAdds_length]
    have h65 : 5 + m + 1 = 6 + m := by omega
    rw [h65]
    exact newItemLabel_not_mem m

/-- Witness for C4 amended: `a` pressed in the initial state, and
distinctness at the empty (hence deletion-free) key sequence. -/
theorem append_behavior_witness :
    App.new.handle_key (plainKey (.Char 'a')) =
      some { App.new with
        items := App.new.items ++ [newItemLabel (App.new.items.length + 1)] } ∧
    newItemLabel (App.new.items.length + 1) ∉ App.new.items :=
  ⟨append_behavior.1 App.new (plainKey (.Char 'a')) rfl,
   append_behavior.2 [] App.new (fun k hk => absurd hk (List.not_mem_nil k)) rfl⟩
